import Mathlib

/-!
Verification of the Agno_chat client-side synchronization core.

The definitions below are a shallow embedding of the repository's code:

* the conversation message store of `ChatApp` (`src/unnamed/part_001`:
  `sendMessage`, the SSE `onmessage` handler, the catch branch);
* the push-connection manager of both `ChatApp` variants
  (`src/unnamed/part_001` and
  `src/Speech_to_text/app/static/chat_bubble.js`: `connectSSE` /
  `disconnectSSE`);
* the mention tokenizer and trigger detector
  (`src/frontend/chatbox/src/components/mentions/tokenUtils.ts`);
* the suggestion controller
  (`src/frontend/chatbox/src/components/mentions/useMentionInput.ts`).

Strings are modelled as `List Char` where character-level slicing matters
(tokenizer) and as `String` in the message store.  JS array operations
`findIndex` + in-place assignment / `splice` are modelled as
replace-first / remove-first recursions, which have the same semantics.
-/

namespace AgnoChat

/-! ## Data model -/

/-- `message_type` of a chat message (the code uses the strings
`'user'` / `'assistant'`). -/
inductive MsgType where
  | user
  | assistant
deriving DecidableEq, Repr

/-- A stored chat message, as kept in `this.messages` by `ChatApp`.
`error` and `isTemporary` are absent (hence falsy) on most records in the
JS code; they are modelled as `Bool` fields defaulting to `false`. -/
structure Msg where
  id : String
  message_type : MsgType
  content : String
  created_at : String
  error : Bool := false
  isTemporary : Bool := false
deriving DecidableEq, Repr

/-- A message carried by a `chat_message` push event (`data.message`). -/
structure ServerMsg where
  id : String
  message_type : MsgType
  content : String
  created_at : String
  error : Bool := false
deriving DecidableEq, Repr

/-- The `data.data.user_message` part of a successful send response. -/
structure UserMsgResp where
  id : String
  content : String
  timestamp : String
deriving DecidableEq, Repr

/-! ## Conversation message store (`ChatApp`, `src/unnamed/part_001`)

`receivePush` embeds the `chat_message` branch of the SSE `onmessage`
handler (lines 745-762), `confirmSent` the replacement on a successful
send (lines 651-663), `sendOptimistic` the optimistic append
(lines 610-631), and `failSent` the catch branch (lines 687-697). -/

/-- The formatting applied to a pushed message before it is stored
(`formattedMessage` in the handler); the record carries no
`isTemporary` property, i.e. it is falsy. -/
def formatPush (m : ServerMsg) : Msg :=
  { id := m.id, message_type := m.message_type, content := m.content,
    created_at := m.created_at, error := m.error, isTemporary := false }

/-- The duplicate test of the handler:
`msg.id === data.message.id || (msg.content === data.message.content &&
msg.message_type === data.message.message_type)`. -/
def dupMatch (m : ServerMsg) (x : Msg) : Bool :=
  x.id == m.id || (x.content == m.content && decide (x.message_type = m.message_type))

/-- The `chat_message` branch: if some stored message matches the duplicate
test the event is dropped, otherwise the formatted message is appended. -/
def receivePush (msgs : List Msg) (m : ServerMsg) : List Msg :=
  if msgs.any (dupMatch m) then msgs else msgs ++ [formatPush m]

/-- Number of stored messages with a given id. -/
def countId (msgs : List Msg) (i : String) : Nat :=
  msgs.countP (fun x => x.id == i)

/-- Number of stored non-temporary user messages with a given content
(the "non-temporary Message for that send"). -/
def countConfirmed (msgs : List Msg) (c : String) : Nat :=
  msgs.countP (fun x => x.content == c && decide (x.message_type = MsgType.user) && !x.isTemporary)

/-- Replace the first message with the given id (the `findIndex` /
`this.messages[tempIndex] = ...` pair of `sendMessage`); when no message
has the id (`tempIndex === -1`) nothing changes. -/
def replaceFirstById (msgs : List Msg) (tempId : String) (v : Msg) : List Msg :=
  match msgs with
  | [] => []
  | x :: rest => if x.id == tempId then v :: rest else x :: replaceFirstById rest tempId v

/-- Successful-send confirmation: the temporary entry is replaced in place by
the server-assigned user message (`id`, `message_type: 'user'`, server
content and timestamp, `isTemporary: false`; no `error` property). -/
def confirmSent (msgs : List Msg) (tempId : String) (u : UserMsgResp) : List Msg :=
  replaceFirstById msgs tempId
    { id := u.id, message_type := MsgType.user, content := u.content,
      created_at := u.timestamp, error := false, isTemporary := false }

/-- The temporary message appended by `sendMessage`. -/
def mkTempMsg (tempId content now : String) : Msg :=
  { id := tempId, message_type := MsgType.user, content := content,
    created_at := now, error := false, isTemporary := true }

/-- Remove the first message with the given id (the `findIndex` /
`splice(tempIndex, 1)` pair of the catch branch). -/
def failSent (msgs : List Msg) (tempId : String) : List Msg :=
  match msgs with
  | [] => []
  | x :: rest => if x.id == tempId then rest else x :: failSent rest tempId

/-- The store together with the text of the input box. -/
structure ChatInputState where
  messages : List Msg
  input : String
deriving DecidableEq, Repr

/-- The start of `sendMessage`: the content is the trimmed input, the input
box is cleared, and a temporary user message is appended.  Returns the new
state and the captured content (the local `content` variable). -/
def sendOptimistic (st : ChatInputState) (tempId now : String) : ChatInputState × String :=
  let content := st.input.trim
  ({ messages := st.messages ++ [mkTempMsg tempId content now], input := "" }, content)

/-- The catch branch of `sendMessage`: the temporary entry is removed and
the captured content is written back to the input box. -/
def sendMessageCatch (st : ChatInputState) (tempId content : String) : ChatInputState :=
  { messages := failSent st.messages tempId, input := content }

/-- Concrete store holding one optimistic entry, for the C1 counterexample. -/
def c1Store : List Msg :=
  [{ id := "temp-1", message_type := MsgType.user, content := "hi",
     created_at := "t0", error := false, isTemporary := true }]

/-- Concrete pushed server echo of that entry, for the C1 counterexample. -/
def c1Push : ServerMsg :=
  { id := "srv-1", message_type := MsgType.user, content := "hi",
    created_at := "t1", error := false }

/-- Concrete server echo of a sent message, for the C2 witness. -/
def c2Echo : ServerMsg :=
  { id := "m1", message_type := MsgType.user, content := "hello",
    created_at := "t1", error := false }

/-- Concrete send response (`data.data.user_message`), for the C2 witness. -/
def c2Resp : UserMsgResp :=
  { id := "m1", content := "hello", timestamp := "t1" }

/-! ## Push connection manager

Two variants exist in the repository.  `src/unnamed/part_001` (lines
701-729): `connectSSE` first calls `disconnectSSE`, then skips when the
requested conversation is no longer `currentConversationId`, then opens a
new `EventSource`.  `chat_bubble.js` (lines 497-535): `connectSSE` first
skips when the conversation is not current, then skips when already
connected to it (`connectedConversationId` matches and an `eventSource`
exists), and only then disconnects and opens.

To make "at most one live connection" a real theorem, the model keeps a
ledger `live` of connections that were opened (`new EventSource`) and not
yet closed (`close()`), next to the single `eventSource` field `es` of the
code; opened connections get fresh numbers from `next`. -/

/-- One opened push connection: a fresh number and the conversation whose
events endpoint it targets. -/
structure Conn where
  cid : Nat
  conv : String
deriving DecidableEq, Repr

/-- The connection-relevant fields of `ChatApp` plus the ledger of open
connections.  `connectedConvId` models `connectedConversationId`, which
only the `chat_bubble.js` variant reads. -/
structure SSEState where
  current : Option String
  es : Option Conn
  connectedConvId : Option String
  live : List Conn
  next : Nat
deriving DecidableEq, Repr

/-- `disconnectSSE` (both variants): close the tracked `eventSource` if any
and null the fields. -/
def disconnectSSE (s : SSEState) : SSEState :=
  match s.es with
  | none => s
  | some c => { s with es := none, connectedConvId := none, live := s.live.erase c }

/-- Open a new `EventSource` for a conversation and track it. -/
def openSSE (s : SSEState) (conversationId : String) : SSEState :=
  let c : Conn := { cid := s.next, conv := conversationId }
  { s with es := some c, connectedConvId := some conversationId,
           live := s.live ++ [c], next := s.next + 1 }

/-- `connectSSE` of `src/unnamed/part_001`: disconnect first, then drop the
attempt when the conversation is no longer selected, else open. -/
def connectSSEApp (s : SSEState) (conversationId : String) : SSEState :=
  let s₁ := disconnectSSE s
  if s₁.current = some conversationId then openSSE s₁ conversationId else s₁

/-- `connectSSE` of `chat_bubble.js`: drop the attempt when the conversation
is not selected; skip when already connected to it; else disconnect and
open. -/
def connectSSEBubble (s : SSEState) (conversationId : String) : SSEState :=
  if s.current = some conversationId then
    if s.connectedConvId = some conversationId ∧ s.es ≠ none then s
    else openSSE (disconnectSSE s) conversationId
  else s

/-- The external triggers acting on the connection fields: assignment to
`currentConversationId` (conversation switch / close), a `connectSSE(id)`
call (possibly scheduled before a switch, so with a stale id), and a
`disconnectSSE()` call (error handler, `connection_timeout`, page hidden,
unload). -/
inductive SSEEvent where
  | setCurrent (o : Option String)
  | connect (id : String)
  | disconnect
deriving DecidableEq, Repr

/-- One event against the `part_001` variant. -/
def stepApp (s : SSEState) (e : SSEEvent) : SSEState :=
  match e with
  | SSEEvent.setCurrent o => { s with current := o }
  | SSEEvent.connect id => connectSSEApp s id
  | SSEEvent.disconnect => disconnectSSE s

/-- One event against the `chat_bubble.js` variant. -/
def stepBubble (s : SSEState) (e : SSEEvent) : SSEState :=
  match e with
  | SSEEvent.setCurrent o => { s with current := o }
  | SSEEvent.connect id => connectSSEBubble s id
  | SSEEvent.disconnect => disconnectSSE s

/-- The constructor state: no conversation, no connection. -/
def initSSE : SSEState :=
  { current := none, es := none, connectedConvId := none, live := [], next := 0 }

/-- Run a sequence of events (part_001 variant). -/
def runApp (s : SSEState) (evs : List SSEEvent) : SSEState :=
  evs.foldl stepApp s

/-- Run a sequence of events (chat_bubble.js variant). -/
def runBubble (s : SSEState) (evs : List SSEEvent) : SSEState :=
  evs.foldl stepBubble s

/-- The internal invariant tying the ledger to the code's single
`eventSource` field: the open connections are exactly the tracked one,
`connectedConversationId` matches it, and all opened numbers are below
`next`. -/
def SSEInv (s : SSEState) : Prop :=
  s.live = s.es.toList ∧ s.connectedConvId = s.es.map Conn.conv ∧
    ∀ c ∈ s.live, c.cid < s.next

/-! ## Mention tokenizer (`tokenUtils.ts`)

The editing surface is a DOM subtree; it is embedded as a rose tree.
Text content is `List Char` so that offsets and slices are character
exact. -/

/-- `MentionType` — `'meeting' | 'file' | 'project'`. -/
inductive MentionType where
  | meeting
  | file
  | project
deriving DecidableEq, Repr

/-- The characters of a mention type as it appears in a wire token. -/
def typeChars : MentionType → List Char
  | MentionType.meeting => "meeting".data
  | MentionType.file => "file".data
  | MentionType.project => "project".data

/-- The canonical wire token `@{type}{name}` built by the serializer
(`` `@{${type}}{${name}}` ``). -/
def tokenChars (ty : MentionType) (name : List Char) : List Char :=
  "@\x7b".data ++ typeChars ty ++ "\x7d\x7b".data ++ name ++ "\x7d".data

/-- `MentionOccurrence` — `entity_type`, `entity_id`, offsets into the
serialized text, and the token length. -/
structure Occurrence where
  entity_type : MentionType
  entity_id : List Char
  offset_start : Nat
  offset_end : Nat
  length : Nat
deriving DecidableEq, Repr

mutual

/-- A node of the editing surface.  `chip` is an element carrying the
`data-mention-*` attributes (its subtree is skipped by the serializer),
`br` a `<BR>`, `block` an element rendered `display: block` (or a `DIV` /
`P`), `inlineEl` any other element, `text` a text node. -/
inductive DomNode where
  | text (data : List Char)
  | br
  | chip (mid mname : List Char) (mtype : MentionType) (children : DomForest)
  | block (children : DomForest)
  | inlineEl (children : DomForest)

/-- A sibling list of surface nodes. -/
inductive DomForest where
  | nil
  | cons (hd : DomNode) (tl : DomForest)

end

mutual

/-- The depth-first `walk` of `serializeContenteditableToText`, threading
the built content and the occurrence list: text data is appended verbatim,
`BR` appends a newline, a chip appends its wire token and records an
occurrence at the current length (skipping the subtree), a block-level
element first appends a newline unless one is already pending, and other
elements just recurse. -/
def walkNode : DomNode → List Char → List Occurrence → List Char × List Occurrence
  | DomNode.text d, c, occs => (c ++ d, occs)
  | DomNode.br, c, occs => (c ++ ['\n'], occs)
  | DomNode.chip mid mname mtype _ch, c, occs =>
      let tok := tokenChars mtype mname
      (c ++ tok, occs ++ [{ entity_type := mtype, entity_id := mid, offset_start := c.length,
                            offset_end := c.length + tok.length, length := tok.length }])
  | DomNode.block ch, c, occs =>
      walkForest ch (if c.getLast? = some '\n' then c else c ++ ['\n']) occs
  | DomNode.inlineEl ch, c, occs => walkForest ch c occs

/-- `walk` over a sibling list, left to right. -/
def walkForest : DomForest → List Char → List Occurrence → List Char × List Occurrence
  | DomForest.nil, c, occs => (c, occs)
  | DomForest.cons h t, c, occs =>
      let p := walkNode h c occs
      walkForest t p.1 p.2

end

/-- Cap runs of newlines at `2`, counting the newlines already passed:
the effect of `content.replace(/\n{3,}/g, '\n\n')`. -/
def capNl : List Char → Nat → List Char
  | [], _ => []
  | ch :: rest, k =>
      if ch = '\n' then
        if k < 2 then '\n' :: capNl rest (k + 1) else capNl rest (k + 1)
      else ch :: capNl rest 0

/-- `content.replace(/\n{3,}/g, '\n\n')`. -/
def collapseNewlines (cs : List Char) : List Char :=
  capNl cs 0

/-- The whitespace the final `.trim()` removes (ASCII fragment of the JS
definition). -/
def isJsWs (ch : Char) : Bool :=
  ch = ' ' || ch = '\n' || ch = '\t' || ch = '\r'

/-- `String.prototype.trim`: drop leading and trailing whitespace. -/
def trimChars (cs : List Char) : List Char :=
  ((cs.dropWhile isJsWs).reverse.dropWhile isJsWs).reverse

/-- `serializeContenteditableToText`: walk the root's children over empty
accumulators, then collapse newline runs and trim the content.  The
occurrence list is returned as recorded during the walk. -/
def serializeContenteditableToText (root : DomForest) : List Char × List Occurrence :=
  let p := walkForest root [] []
  (trimChars (collapseNewlines p.1), p.2)

/-- The slice `cs[s ... s+l)`. -/
def sliceAt (cs : List Char) (s l : Nat) : List Char :=
  (cs.drop s).take l

/-- Well-formedness of one recorded occurrence against the built string:
offsets cohere with the length and the slice at the recorded offset is a
wire token of the recorded type. -/
def OccWF (cs : List Char) (o : Occurrence) : Prop :=
  o.offset_end = o.offset_start + o.length ∧ o.offset_end ≤ cs.length ∧
    ∃ name, sliceAt cs o.offset_start o.length = tokenChars o.entity_type name ∧
      o.length = (tokenChars o.entity_type name).length

/-- Well-formedness of the recorded occurrence list: emission order never
overlaps and each occurrence is a wire token at its recorded offset. -/
def OccsOk (cs : List Char) (occs : List Occurrence) : Prop :=
  occs.Chain' (fun a b => a.offset_end ≤ b.offset_start) ∧ ∀ o ∈ occs, OccWF cs o

/-- Concrete surface whose built text contains a run of three newlines,
for the C5 counterexample. -/
def c5Forest : DomForest :=
  DomForest.cons (DomNode.text "a\n\n\nb".data) DomForest.nil

/-! ## Wire-token parser (`parseTokensFromText`)

`TOKEN_REGEX = /@\{(meeting|project|file)\}\{([^}]+)\}/g` applied with
`exec` in a loop: the scanner moves left to right, at each position tries
the three prefixes, requires a non-empty brace-free name followed by `}`,
and on a match jumps past the whole token. -/

/-- The prefix `@{type}{` of a wire token. -/
def tokenPrefix (ty : MentionType) : List Char :=
  "@\x7b".data ++ typeChars ty ++ "\x7d\x7b".data

/-- Try to match `@{ty}{name}` at the head of `cs` for one fixed type:
returns the name and the total match length.  `[^}]+` is the maximal
non-empty run of non-`}` characters, which must be followed by `}`. -/
def tryTokenTy (ty : MentionType) (cs : List Char) : Option (MentionType × List Char × Nat) :=
  if (tokenPrefix ty).isPrefixOf cs then
    let rest := cs.drop (tokenPrefix ty).length
    let name := rest.takeWhile (fun ch => ch != '}')
    if name.length = 0 then none
    else if (rest.drop name.length).head? = some '}' then
      some (ty, name, (tokenPrefix ty).length + name.length + 1)
    else none
  else none

/-- Try the three alternatives of the regex at the head of `cs`, in the
alternation's order (the three prefixes are mutually exclusive). -/
def tryToken (cs : List Char) : Option (MentionType × List Char × Nat) :=
  match tryTokenTy MentionType.meeting cs with
  | some r => some r
  | none =>
    match tryTokenTy MentionType.project cs with
    | some r => some r
    | none => tryTokenTy MentionType.file cs

/-- One result of `parseTokensFromText`: `{start, end, mention}` with
`mention = {type, id: name.trim(), name: name.trim()}` (`end` is a Lean
keyword, hence `stop`). -/
structure ParsedToken where
  start : Nat
  stop : Nat
  mtype : MentionType
  mid : List Char
  mname : List Char
deriving DecidableEq, Repr

/-- The `exec` loop with explicit fuel (any fuel at least `cs.length`
gives the untruncated scan): at each position try a match; on success
emit the token and continue past it, else advance one character.
`pos` is the index of `cs`'s head in the original input. -/
def scanTokens : Nat → List Char → Nat → List ParsedToken
  | 0, _, _ => []
  | _, [], _ => []
  | fuel + 1, ch :: rest, pos =>
      match tryToken (ch :: rest) with
      | some (ty, name, len) =>
          { start := pos, stop := pos + len, mtype := ty,
            mid := trimChars name, mname := trimChars name } ::
            scanTokens fuel (rest.drop (len - 1)) (pos + len)
      | none => scanTokens fuel rest (pos + 1)

/-- `parseTokensFromText`: scan the whole input from position `0`. -/
def parseTokensFromText (cs : List Char) : List ParsedToken :=
  scanTokens cs.length cs 0

/-- Concrete input holding a well-formed token that overlaps an earlier
match of the scanner, for the C6 counterexample. -/
def c6Input : List Char :=
  "@\x7bmeeting\x7d\x7ba@\x7bfile\x7d\x7bb\x7d".data

/-! ## Trigger detector (`findTriggerRange`)

The function is applied to the text left of the caret inside the current
text node (`left = text.slice(0, offset)`); it looks for the last `@` and
accepts it when the character before it is the node start or a non-word
character. -/

/-- JS `\w`: ASCII letters, digits and underscore. -/
def isWordChar (ch : Char) : Bool :=
  ch.isAlpha || ch.isDigit || ch == '_'

/-- `String.prototype.lastIndexOf` restricted to one character. -/
def lastIndexOf (cs : List Char) (ch : Char) : Option Nat :=
  match cs with
  | [] => none
  | c :: rest =>
      match lastIndexOf rest ch with
      | some i => some (i + 1)
      | none => if c = ch then some 0 else none

/-- The boundary test of `findTriggerRange`: `atIndex === 0` (the prefix
before the `@` is empty) or `/[^\w]$/` holds of that prefix (its last
character is a non-word character). -/
def triggerBoundary (left : List Char) (i : Nat) : Bool :=
  match (left.take i).getLast? with
  | none => true
  | some c => !(isWordChar c)

/-- `findTriggerRange` on the text left of the caret: the last `@`, its
boundary test, and on success the pair of the `@`'s index (the range
start; the range end is the caret) and the query text after the `@`. -/
def findTriggerRange (left : List Char) : Option (Nat × List Char) :=
  match lastIndexOf left '@' with
  | none => none
  | some i => if triggerBoundary left i then some (i, left.drop (i + 1)) else none

/-- Concrete caret-left text with a boundary-preceded `@` at the node start
and a later mid-word `@`, for the C7 counterexample. -/
def c7Input : List Char :=
  "@x y@z".data

/-! ## Suggestion controller (`useMentionInput.ts`) -/

/-- `MentionSearchItem` — `{id, name, type}`. -/
structure MentionSearchItem where
  id : List Char
  name : List Char
  mtype : MentionType
deriving DecidableEq, Repr

/-- The popover state owned by the hook: `open`, `items`, `focusedIndex`
(the anchor position is presentational and not modelled). -/
structure SuggestState where
  isOpen : Bool
  items : List MentionSearchItem
  focusedIndex : Int
deriving DecidableEq, Repr

/-- The hard-coded default of the `limit` option. -/
def defaultSearchLimit : Nat := 8

/-- `runSearch`: the completed injected search, either a fulfilled result
list or a rejection.  On fulfilment the items are the results capped at
`limit`, the focus is `0` for non-empty results else `-1`, and the popover
opens; the catch branch clears items and focus and still opens. -/
def runSearch (limit : Nat) (res : Except Unit (List MentionSearchItem))
    (s : SuggestState) : SuggestState :=
  match res with
  | Except.ok r =>
      { s with items := r.take limit,
               focusedIndex := if 0 < r.length then 0 else -1,
               isOpen := true }
  | Except.error _ =>
      { s with items := [], focusedIndex := -1, isOpen := true }

/-! ## Commit (`useMentionInput.ts` / `replaceRangeWithMention`) -/

/-- `Mention` — `{id, name, type}`. -/
structure Mention where
  id : List Char
  name : List Char
  type : MentionType
deriving DecidableEq, Repr

/-- The chip's display mode: `full` shows the wire token, `short` shows
`@name`. -/
inductive DisplayMode where
  | full
  | short
deriving DecidableEq, Repr

/-- The `textContent` given to a freshly created chip. -/
def chipDisplayText (dm : DisplayMode) (m : Mention) : List Char :=
  match dm with
  | DisplayMode.full => tokenChars m.type m.name
  | DisplayMode.short => '@' :: m.name

/-- `createMentionChip`: a non-editable element carrying the mention's
attributes, whose only child is its display text. -/
def createMentionChip (m : Mention) (dm : DisplayMode) : DomNode :=
  DomNode.chip m.id m.name m.type
    (DomForest.cons (DomNode.text (chipDisplayText dm m)) DomForest.nil)

/-- A recorded trigger range over the editor's child list (start and end
positions of the selection to replace). -/
structure TriggerRange where
  rstart : Nat
  rstop : Nat
deriving DecidableEq, Repr

/-- `replaceRangeWithMention`: delete the range's contents, insert a fresh
chip there and a trailing space after it. -/
def replaceRangeWithMention (surface : List DomNode) (r : TriggerRange) (m : Mention)
    (dm : DisplayMode) : List DomNode :=
  surface.take r.rstart ++ [createMentionChip m dm, DomNode.text [' ']] ++ surface.drop r.rstop

/-- The controller's state as the `commit` callback sees it: the editor
ref (its child list), the recorded trigger range ref, and the popover
state. -/
structure MentionController where
  editor : Option (List DomNode)
  triggerRange : Option TriggerRange
  suggest : SuggestState

/-- `close()`: close the popover, clear items and focus. -/
def closePopover : SuggestState :=
  { isOpen := false, items := [], focusedIndex := -1 }

/-- `commit(item)`: no-op returning `false` when the editor or the
recorded trigger range is missing; otherwise replace the range with a
chip in `short` mode, close, and return `true`. -/
def commit (s : MentionController) (item : MentionSearchItem) : Bool × MentionController :=
  match s.editor, s.triggerRange with
  | some ed, some r =>
      let m : Mention := { id := item.id, name := item.name, type := item.mtype }
      (true, { editor := some (replaceRangeWithMention ed r m DisplayMode.short),
               triggerRange := none, suggest := closePopover })
  | some _, none => (false, s)
  | none, _ => (false, s)

/-- Concrete controller state with no recorded trigger range, for the C9
witness. -/
def c9Controller : MentionController :=
  { editor := some [DomNode.text "hello".data], triggerRange := none,
    suggest := { isOpen := true, items := [], focusedIndex := -1 } }

/-- Concrete search item, for the C9 witness. -/
def c9Item : MentionSearchItem :=
  { id := "m1".data, name := "Sprint".data, mtype := MentionType.meeting }

/-! ## API conversion (`convertMentionToApiFormat`) -/

/-- `ApiMention` — the occurrence shape sent to the API. -/
structure ApiMention where
  entity_type : MentionType
  entity_id : List Char
  offset_start : Nat
  offset_end : Nat
deriving DecidableEq, Repr

/-- `convertMentionToApiFormat(mention, offset)`: the span is
`offset ... offset + mention.name.length + 1` (`+1` for the `@`), i.e. the
short display form `@name`. -/
def convertMentionToApiFormat (m : Mention) (offset : Nat) : ApiMention :=
  { entity_type := m.type, entity_id := m.id, offset_start := offset,
    offset_end := offset + m.name.length + 1 }

/-! ## Theorems -/

/-- The handler's duplicate test holds exactly when ids match or content and
type both match. -/
theorem dupMatch_iff (m : ServerMsg) (x : Msg) :
    dupMatch m x = true ↔
      x.id = m.id ∨ (x.content = m.content ∧ x.message_type = m.message_type) := by
  simp [dupMatch]

/-- Some stored message passes the duplicate test iff a matching one exists. -/
theorem any_dupMatch_iff (msgs : List Msg) (m : ServerMsg) :
    msgs.any (dupMatch m) = true ↔
      ∃ x ∈ msgs, x.id = m.id ∨ (x.content = m.content ∧ x.message_type = m.message_type) := by
  simp only [List.any_eq_true, dupMatch_iff]

/-- C1 (amended). `receivePush` ignores the pushed message when a stored
message with the same id exists, otherwise ignores it when a stored message
with matching content and message_type exists, and otherwise appends it;
delivering the same server message twice yields the same store as
delivering it once; and when the store holds neither a message with the
pushed id nor a content-and-type match, delivering the message twice leaves
exactly one stored message with that id.  (The original claim's unconditional
"exactly one stored Message with that id" fails when a content-and-type
match — e.g. the optimistic entry — is already stored: the push is then
treated as its duplicate and no message with the server id is ever stored;
see the counterexample.) -/
theorem receivePush_spec (msgs : List Msg) (m : ServerMsg) :
    ((∃ x ∈ msgs, x.id = m.id) → receivePush msgs m = msgs) ∧
    ((∃ x ∈ msgs, x.content = m.content ∧ x.message_type = m.message_type) →
      receivePush msgs m = msgs) ∧
    ((∀ x ∈ msgs, ¬(x.id = m.id ∨ (x.content = m.content ∧ x.message_type = m.message_type))) →
      receivePush msgs m = msgs ++ [formatPush m]) ∧
    receivePush (receivePush msgs m) m = receivePush msgs m ∧
    ((∀ x ∈ msgs, ¬(x.id = m.id ∨ (x.content = m.content ∧ x.message_type = m.message_type))) →
      countId (receivePush (receivePush msgs m) m) m.id = 1) := by
  have hidem : receivePush (receivePush msgs m) m = receivePush msgs m := by
    by_cases h : msgs.any (dupMatch m) = true
    · simp [receivePush, h]
    · have h2 : (msgs ++ [formatPush m]).any (dupMatch m) = true := by
        refine (any_dupMatch_iff _ m).mpr ⟨formatPush m, ?_, Or.inl rfl⟩
        simp
      simp [receivePush, h, h2]
  refine ⟨?_, ?_, ?_, hidem, ?_⟩
  · intro ⟨x, hx, hid⟩
    have := (any_dupMatch_iff msgs m).mpr ⟨x, hx, Or.inl hid⟩
    simp [receivePush, this]
  · intro ⟨x, hx, hct⟩
    have := (any_dupMatch_iff msgs m).mpr ⟨x, hx, Or.inr hct⟩
    simp [receivePush, this]
  · intro h
    have hfalse : ¬ msgs.any (dupMatch m) = true := by
      rw [any_dupMatch_iff]
      rintro ⟨x, hx, hor⟩
      exact h x hx hor
    simp [receivePush, hfalse]
  · intro h
    have hfalse : ¬ msgs.any (dupMatch m) = true := by
      rw [any_dupMatch_iff]
      rintro ⟨x, hx, hor⟩
      exact h x hx hor
    have h1 : receivePush msgs m = msgs ++ [formatPush m] := by
      simp [receivePush, hfalse]
    have hzero : countId msgs m.id = 0 := by
      rw [countId, List.countP_eq_zero]
      intro x hx
      simpa using fun hid => h x hx (Or.inl hid)
    rw [hidem, h1, countId, List.countP_append]
    rw [countId] at hzero
    rw [hzero]
    simp [formatPush]

/-- C1 counterexample.  The store holds the optimistic entry
`c1Store = [⟨"temp-1", user, "hi", ...⟩]`; the server echo
`c1Push = ⟨"srv-1", user, "hi", ...⟩` is delivered twice.  Both deliveries
are dropped as content-and-type duplicates, so the store is unchanged and
the number of stored messages with id `"srv-1"` is `0`, not `1` — refuting
"delivering the same server message twice leaves exactly one stored
Message with that id" for this store state. -/
theorem receivePush_twice_id_cex :
    receivePush (receivePush c1Store c1Push) c1Push = c1Store ∧
    ¬ countId (receivePush (receivePush c1Store c1Push) c1Push) c1Push.id = 1 := by
  decide

/-- Replace-first skips a prefix none of whose messages carry the id. -/
theorem replaceFirstById_append (l l' : List Msg) (tid : String) (v : Msg)
    (h : ∀ x ∈ l, x.id ≠ tid) :
    replaceFirstById (l ++ l') tid v = l ++ replaceFirstById l' tid v := by
  induction l with
  | nil => rfl
  | cons x rest ih =>
      have hx : x.id ≠ tid := h x (by simp)
      simp only [List.cons_append, replaceFirstById, List.append_eq]
      rw [if_neg (by simpa using hx), ih (fun y hy => h y (by simp [hy]))]

/-- Remove-first skips a prefix none of whose messages carry the id. -/
theorem failSent_append (l l' : List Msg) (tid : String)
    (h : ∀ x ∈ l, x.id ≠ tid) :
    failSent (l ++ l') tid = l ++ failSent l' tid := by
  induction l with
  | nil => rfl
  | cons x rest ih =>
      have hx : x.id ≠ tid := h x (by simp)
      simp only [List.cons_append, failSent, List.append_eq]
      rw [if_neg (by simpa using hx), ih (fun y hy => h y (by simp [hy]))]

/-- C2. The race "optimistic append; server echo arrives by push before the
send resolves; the send then resolves and confirms" ends with the
temporary entry replaced in place by the server message and with exactly
one non-temporary user message with the sent content — never two.
Hypotheses: the echo carries the sent content and type `user`, the
response's user message carries the sent content, and the pre-send store
has no user message with that content and no message with the temporary
id. -/
theorem send_echo_race_single (msgs : List Msg) (tempId now c : String)
    (echo : ServerMsg) (u : UserMsgResp)
    (hec : echo.content = c) (het : echo.message_type = MsgType.user)
    (huc : u.content = c)
    (hfresh : ∀ x ∈ msgs, ¬(x.content = c ∧ x.message_type = MsgType.user))
    (hid : ∀ x ∈ msgs, x.id ≠ tempId) :
    confirmSent (receivePush (msgs ++ [mkTempMsg tempId c now]) echo) tempId u
      = msgs ++ [{ id := u.id, message_type := MsgType.user, content := u.content,
                   created_at := u.timestamp, error := false, isTemporary := false }] ∧
    countConfirmed
      (confirmSent (receivePush (msgs ++ [mkTempMsg tempId c now]) echo) tempId u) c = 1 := by
  have hdup : (msgs ++ [mkTempMsg tempId c now]).any (dupMatch echo) = true := by
    refine (any_dupMatch_iff _ echo).mpr ⟨mkTempMsg tempId c now, by simp, Or.inr ?_⟩
    simp [mkTempMsg, hec, het]
  have hpush : receivePush (msgs ++ [mkTempMsg tempId c now]) echo
      = msgs ++ [mkTempMsg tempId c now] := by
    simp [receivePush, hdup]
  have hconf : confirmSent (msgs ++ [mkTempMsg tempId c now]) tempId u
      = msgs ++ [{ id := u.id, message_type := MsgType.user, content := u.content,
                   created_at := u.timestamp, error := false, isTemporary := false }] := by
    rw [confirmSent, replaceFirstById_append _ _ _ _ hid]
    simp [replaceFirstById, mkTempMsg]
  refine ⟨by rw [hpush, hconf], ?_⟩
  rw [hpush, hconf, countConfirmed, List.countP_append]
  have hzero : msgs.countP
      (fun x => x.content == c && decide (x.message_type = MsgType.user) && !x.isTemporary) = 0 := by
    rw [List.countP_eq_zero]
    intro x hx
    have := hfresh x hx
    simp only [Bool.and_eq_true, beq_iff_eq, decide_eq_true_eq, Bool.not_eq_true']
    rintro ⟨⟨hc', ht'⟩, _⟩
    exact this ⟨hc', ht'⟩
  rw [hzero]
  simp [huc]

/-- C2 witness: the race at a concrete send over the empty store. -/
theorem send_echo_race_single_witness :
    confirmSent (receivePush ([] ++ [mkTempMsg "temp-1" "hello" "t0"]) c2Echo) "temp-1" c2Resp
      = [] ++ [{ id := "m1", message_type := MsgType.user, content := "hello",
                 created_at := "t1", error := false, isTemporary := false }] ∧
    countConfirmed
      (confirmSent (receivePush ([] ++ [mkTempMsg "temp-1" "hello" "t0"]) c2Echo)
        "temp-1" c2Resp) "hello" = 1 :=
  send_echo_race_single [] "temp-1" "t0" "hello" c2Echo c2Resp rfl rfl rfl
    (by simp) (by simp)

/-- C3. When the send fails, the catch branch removes exactly the temporary
entry appended by that send — restoring the pre-send message list, hence
the pre-send count, and touching no other stored message — and writes the
captured content (the trimmed input text) back into the input box.
Hypothesis: the pre-send store has no message with the temporary id. -/
theorem send_fail_restores (st : ChatInputState) (tempId now : String)
    (hid : ∀ x ∈ st.messages, x.id ≠ tempId) :
    sendMessageCatch (sendOptimistic st tempId now).1 tempId (sendOptimistic st tempId now).2
      = { messages := st.messages, input := st.input.trim } ∧
    (sendMessageCatch (sendOptimistic st tempId now).1 tempId
      (sendOptimistic st tempId now).2).messages.length = st.messages.length := by
  have hms : (sendOptimistic st tempId now).1.messages
      = st.messages ++ [mkTempMsg tempId st.input.trim now] := rfl
  have h1 : failSent (st.messages ++ [mkTempMsg tempId st.input.trim now]) tempId
      = st.messages := by
    rw [failSent_append _ _ _ hid]
    simp [failSent, mkTempMsg]
  constructor
  · simp [sendMessageCatch, hms, h1, sendOptimistic]
  · simp [sendMessageCatch, hms, h1]

/-- C3 witness: a failed send at a concrete state with a padded input. -/
theorem send_fail_restores_witness :
    sendMessageCatch (sendOptimistic { messages := [], input := " hi " } "temp-9" "t0").1 "temp-9"
        (sendOptimistic { messages := [], input := " hi " } "temp-9" "t0").2
      = { messages := [], input := " hi ".trim } ∧
    (sendMessageCatch (sendOptimistic { messages := [], input := " hi " } "temp-9" "t0").1 "temp-9"
        (sendOptimistic { messages := [], input := " hi " } "temp-9" "t0").2).messages.length
      = ([] : List Msg).length :=
  send_fail_restores { messages := [], input := " hi " } "temp-9" "t0" (by simp)

/-- `disconnectSSE` always leaves the `eventSource` field null. -/
theorem disconnect_es (s : SSEState) : (disconnectSSE s).es = none := by
  cases hse : s.es <;> simp [disconnectSSE, hse]

/-- `disconnectSSE` does not touch the selected conversation. -/
theorem disconnect_current (s : SSEState) : (disconnectSSE s).current = s.current := by
  cases hse : s.es <;> simp [disconnectSSE, hse]

/-- `disconnectSSE` does not touch the freshness counter. -/
theorem disconnect_next (s : SSEState) : (disconnectSSE s).next = s.next := by
  cases hse : s.es <;> simp [disconnectSSE, hse]

/-- Under the invariant, `disconnectSSE` closes every open connection. -/
theorem disconnect_live (s : SSEState) (h : SSEInv s) : (disconnectSSE s).live = [] := by
  obtain ⟨h1, -, -⟩ := h
  cases hse : s.es with
  | none => simp only [disconnectSSE, hse]; rw [h1, hse]; rfl
  | some c => simp only [disconnectSSE, hse]; rw [h1, hse]; simp [Option.toList]

/-- The constructor state satisfies the invariant. -/
theorem sseInv_init : SSEInv initSSE := by
  refine ⟨rfl, rfl, ?_⟩
  intro c hc
  simp [initSSE] at hc

/-- `disconnectSSE` preserves the invariant. -/
theorem sseInv_disconnect (s : SSEState) (h : SSEInv s) : SSEInv (disconnectSSE s) := by
  refine ⟨?_, ?_, ?_⟩
  · rw [disconnect_live s h, disconnect_es s]; rfl
  · cases hse : s.es with
    | none =>
        obtain ⟨-, h2, -⟩ := h
        simp only [disconnectSSE, hse]
        rw [hse] at h2
        exact h2
    | some c => simp [disconnectSSE, hse]
  · intro c hc
    rw [disconnect_live s h] at hc
    cases hc

/-- Opening with no tracked connection preserves the invariant. -/
theorem sseInv_open (s : SSEState) (id : String) (h : SSEInv s) (hes : s.es = none) :
    SSEInv (openSSE s id) := by
  obtain ⟨h1, -, h3⟩ := h
  have hl : s.live = [] := by rw [h1, hes]; rfl
  refine ⟨?_, ?_, ?_⟩
  · simp [openSSE, hl, Option.toList]
  · simp [openSSE]
  · intro c hc
    simp only [openSSE, hl, List.nil_append, List.mem_singleton] at hc
    subst hc
    simp [openSSE]

/-- Unfolding equation for `connectSSEApp`. -/
theorem connectSSEApp_eq (s : SSEState) (id : String) :
    connectSSEApp s id =
      if (disconnectSSE s).current = some id then openSSE (disconnectSSE s) id
      else disconnectSSE s := rfl

/-- Unfolding equation for `connectSSEBubble`. -/
theorem connectSSEBubble_eq (s : SSEState) (id : String) :
    connectSSEBubble s id =
      if s.current = some id then
        if s.connectedConvId = some id ∧ s.es ≠ none then s
        else openSSE (disconnectSSE s) id
      else s := rfl

/-- Each external trigger preserves the invariant (`part_001` variant). -/
theorem sseInv_stepApp (s : SSEState) (e : SSEEvent) (h : SSEInv s) :
    SSEInv (stepApp s e) := by
  cases e with
  | setCurrent o =>
      obtain ⟨h1, h2, h3⟩ := h
      exact ⟨h1, h2, h3⟩
  | connect id =>
      have hd := sseInv_disconnect s h
      show SSEInv (connectSSEApp s id)
      rw [connectSSEApp_eq]
      by_cases hc : (disconnectSSE s).current = some id
      · rw [if_pos hc]
        exact sseInv_open _ _ hd (disconnect_es s)
      · rw [if_neg hc]
        exact hd
  | disconnect => exact sseInv_disconnect s h

/-- Each external trigger preserves the invariant (`chat_bubble.js`
variant). -/
theorem sseInv_stepBubble (s : SSEState) (e : SSEEvent) (h : SSEInv s) :
    SSEInv (stepBubble s e) := by
  cases e with
  | setCurrent o =>
      obtain ⟨h1, h2, h3⟩ := h
      exact ⟨h1, h2, h3⟩
  | connect id =>
      show SSEInv (connectSSEBubble s id)
      rw [connectSSEBubble_eq]
      by_cases h1 : s.current = some id
      · rw [if_pos h1]
        by_cases h2 : s.connectedConvId = some id ∧ s.es ≠ none
        · rw [if_pos h2]; exact h
        · rw [if_neg h2]
          exact sseInv_open _ _ (sseInv_disconnect s h) (disconnect_es s)
      · rw [if_neg h1]; exact h
  | disconnect => exact sseInv_disconnect s h

/-- Any event sequence preserves the invariant (`part_001` variant). -/
theorem sseInv_runApp (evs : List SSEEvent) :
    ∀ s : SSEState, SSEInv s → SSEInv (runApp s evs) := by
  induction evs with
  | nil => intro s h; exact h
  | cons e rest ih =>
      intro s h
      exact ih _ (sseInv_stepApp s e h)

/-- Any event sequence preserves the invariant (`chat_bubble.js`
variant). -/
theorem sseInv_runBubble (evs : List SSEEvent) :
    ∀ s : SSEState, SSEInv s → SSEInv (runBubble s evs) := by
  induction evs with
  | nil => intro s h; exact h
  | cons e rest ih =>
      intro s h
      exact ih _ (sseInv_stepBubble s e h)

/-- Under the invariant, at most one connection is open. -/
theorem live_length_of_inv (s : SSEState) (h : SSEInv s) : s.live.length ≤ 1 := by
  obtain ⟨h1, -, -⟩ := h
  rw [h1]
  cases s.es <;> simp [Option.toList]

/-- The open connections after `connectSSE` (`part_001` variant): a single
fresh one when the conversation is still selected, none otherwise. -/
theorem connectApp_live (s : SSEState) (h : SSEInv s) (id : String) :
    (connectSSEApp s id).live =
      if s.current = some id then [{ cid := s.next, conv := id }] else [] := by
  rw [connectSSEApp_eq, disconnect_current]
  by_cases hc : s.current = some id
  · rw [if_pos hc, if_pos hc]
    simp [openSSE, disconnect_live s h, disconnect_next]
  · rw [if_neg hc, if_neg hc]
    exact disconnect_live s h

/-- `connectSSE` does not touch the selected conversation (`part_001`
variant). -/
theorem connectApp_current (s : SSEState) (id : String) :
    (connectSSEApp s id).current = s.current := by
  rw [connectSSEApp_eq]
  by_cases hc : (disconnectSSE s).current = some id
  · rw [if_pos hc]; simp [openSSE, disconnect_current]
  · rw [if_neg hc]; exact disconnect_current s

/-- Opening never keeps a prior connection (`part_001` variant): a
`connectSSE` call either leaves the state unchanged or closes every
previously open connection. -/
theorem teardownApp (s : SSEState) (h : SSEInv s) (id : String) :
    stepApp s (SSEEvent.connect id) = s ∨
      ∀ c ∈ s.live, c ∉ (stepApp s (SSEEvent.connect id)).live := by
  right
  intro c hc
  have hcid : c.cid < s.next := h.2.2 c hc
  show c ∉ (connectSSEApp s id).live
  rw [connectApp_live s h id]
  by_cases hcur : s.current = some id
  · rw [if_pos hcur]
    simp only [List.mem_singleton]
    intro heq
    rw [heq] at hcid
    exact absurd hcid (by simp)
  · rw [if_neg hcur]
    simp

/-- Opening never keeps a prior connection (`chat_bubble.js` variant):
a `connectSSE` call either leaves the state unchanged (skip branches) or
closes every previously open connection first. -/
theorem teardownBubble (s : SSEState) (h : SSEInv s) (id : String) :
    stepBubble s (SSEEvent.connect id) = s ∨
      ∀ c ∈ s.live, c ∉ (stepBubble s (SSEEvent.connect id)).live := by
  show connectSSEBubble s id = s ∨ ∀ c ∈ s.live, c ∉ (connectSSEBubble s id).live
  rw [connectSSEBubble_eq]
  by_cases h1 : s.current = some id
  · rw [if_pos h1]
    by_cases h2 : s.connectedConvId = some id ∧ s.es ≠ none
    · rw [if_pos h2]; left; rfl
    · rw [if_neg h2]
      right
      intro c hc
      have hcid : c.cid < s.next := h.2.2 c hc
      have hd := sseInv_disconnect s h
      simp only [openSSE, disconnect_live s h, List.nil_append, disconnect_next,
        List.mem_singleton]
      intro heq
      rw [heq] at hcid
      exact absurd hcid (by simp)
  · rw [if_neg h1]; left; rfl

/-- After a switch to `b`, the `chat_bubble.js` `connectSSE(b)` leaves
exactly one open connection, targeting `b`, with the tracking fields
coherent. -/
theorem connectBubble_after (s : SSEState) (h : SSEInv s) (b : String)
    (hcur : s.current = some b) :
    SSEInv (connectSSEBubble s b) ∧ (connectSSEBubble s b).current = some b ∧
      (connectSSEBubble s b).connectedConvId = some b ∧
      (connectSSEBubble s b).es ≠ none ∧
      (connectSSEBubble s b).live.length = 1 ∧
      ∀ c ∈ (connectSSEBubble s b).live, c.conv = b := by
  have hstep : SSEInv (connectSSEBubble s b) := sseInv_stepBubble s (SSEEvent.connect b) h
  rw [connectSSEBubble_eq] at hstep ⊢
  rw [if_pos hcur] at hstep ⊢
  by_cases h2 : s.connectedConvId = some b ∧ s.es ≠ none
  · rw [if_pos h2] at hstep ⊢
    obtain ⟨h1, hmap, -⟩ := h
    obtain ⟨hccid, hes⟩ := h2
    cases hse : s.es with
    | none => exact absurd hse hes
    | some c =>
        have hconv : c.conv = b := by
          rw [hse] at hmap
          rw [hccid] at hmap
          simpa using hmap.symm
        refine ⟨hstep, hcur, hccid, by simp, ?_, ?_⟩
        · rw [h1, hse]; rfl
        · intro c' hc'
          rw [h1, hse] at hc'
          simp only [Option.toList, List.mem_singleton] at hc'
          rw [hc']
          exact hconv
  · rw [if_neg h2] at hstep ⊢
    have hd := sseInv_disconnect s h
    refine ⟨hstep, ?_, ?_, ?_, ?_, ?_⟩
    · simp [openSSE, disconnect_current, hcur]
    · simp [openSSE]
    · simp [openSSE]
    · simp [openSSE, disconnect_live s h]
    · intro c hc
      simp only [openSSE, disconnect_live s h, List.nil_append, List.mem_singleton] at hc
      rw [hc]

/-- A stale `connectSSE(a)` against a state connected to the selected
conversation `b` is a no-op (`chat_bubble.js` variant): either the guard
or the already-connected check skips it. -/
theorem connectBubble_stale (s : SSEState) (b : String)
    (hcur : s.current = some b) (hccid : s.connectedConvId = some b)
    (hes : s.es ≠ none) (a : String) :
    connectSSEBubble s a = s := by
  rw [connectSSEBubble_eq]
  by_cases hab : s.current = some a
  · rw [if_pos hab]
    have hba : b = a := by
      rw [hcur] at hab
      exact Option.some.inj hab
    rw [if_pos ⟨by rw [hccid, hba], hes⟩]
  · rw [if_neg hab]

/-- C4.  In every reachable state of either connection-manager variant at
most one push connection is open; a `connectSSE` call either skips or
first tears down every open connection; and the interleaving "switch the
selected conversation to `b`, run `connectSSE(b)`, then a stale
`connectSSE(a)` scheduled for the previous conversation fires" leaves at
most one open connection (in the `chat_bubble.js` variant exactly one),
and any open connection targets `b`. -/
theorem sse_single_connection (evs : List SSEEvent) (a b : String) :
    (runApp initSSE evs).live.length ≤ 1 ∧
    (runBubble initSSE evs).live.length ≤ 1 ∧
    (∀ id, stepApp (runApp initSSE evs) (SSEEvent.connect id) = runApp initSSE evs ∨
      ∀ c ∈ (runApp initSSE evs).live,
        c ∉ (stepApp (runApp initSSE evs) (SSEEvent.connect id)).live) ∧
    (∀ id, stepBubble (runBubble initSSE evs) (SSEEvent.connect id) = runBubble initSSE evs ∨
      ∀ c ∈ (runBubble initSSE evs).live,
        c ∉ (stepBubble (runBubble initSSE evs) (SSEEvent.connect id)).live) ∧
    ((runApp (runApp initSSE evs)
        [SSEEvent.setCurrent (some b), SSEEvent.connect b, SSEEvent.connect a]).live.length ≤ 1 ∧
      ∀ c ∈ (runApp (runApp initSSE evs)
        [SSEEvent.setCurrent (some b), SSEEvent.connect b, SSEEvent.connect a]).live,
          c.conv = b) ∧
    ((runBubble (runBubble initSSE evs)
        [SSEEvent.setCurrent (some b), SSEEvent.connect b, SSEEvent.connect a]).live.length = 1 ∧
      ∀ c ∈ (runBubble (runBubble initSSE evs)
        [SSEEvent.setCurrent (some b), SSEEvent.connect b, SSEEvent.connect a]).live,
          c.conv = b) := by
  have hA : SSEInv (runApp initSSE evs) := sseInv_runApp evs initSSE sseInv_init
  have hB : SSEInv (runBubble initSSE evs) := sseInv_runBubble evs initSSE sseInv_init
  refine ⟨live_length_of_inv _ hA, live_length_of_inv _ hB,
    fun id => teardownApp _ hA id, fun id => teardownBubble _ hB id, ?_, ?_⟩
  · -- part_001 scenario
    set s := runApp initSSE evs with hs
    have hrun : runApp s [SSEEvent.setCurrent (some b), SSEEvent.connect b, SSEEvent.connect a]
        = connectSSEApp (connectSSEApp { s with current := some b } b) a := rfl
    rw [hrun]
    set s1 : SSEState := { s with current := some b } with hs1
    have h1 : SSEInv s1 := sseInv_stepApp s (SSEEvent.setCurrent (some b)) hA
    have h2 : SSEInv (connectSSEApp s1 b) := sseInv_stepApp s1 (SSEEvent.connect b) h1
    have hcur2 : (connectSSEApp s1 b).current = some b := by
      rw [connectApp_current]
    have hlive3 := connectApp_live (connectSSEApp s1 b) h2 a
    constructor
    · rw [hlive3]
      by_cases hc : (connectSSEApp s1 b).current = some a
      · rw [if_pos hc]; simp
      · rw [if_neg hc]; simp
    · intro c hc
      rw [hlive3] at hc
      by_cases hca : (connectSSEApp s1 b).current = some a
      · rw [if_pos hca] at hc
        have hab : b = a := by
          rw [hcur2] at hca
          exact Option.some.inj hca
        simp only [List.mem_singleton] at hc
        rw [hc, ← hab]
      · rw [if_neg hca] at hc
        cases hc
  · -- chat_bubble.js scenario
    set s := runBubble initSSE evs with hs
    have hrun : runBubble s [SSEEvent.setCurrent (some b), SSEEvent.connect b, SSEEvent.connect a]
        = connectSSEBubble (connectSSEBubble { s with current := some b } b) a := rfl
    rw [hrun]
    set s1 : SSEState := { s with current := some b } with hs1
    have h1 : SSEInv s1 := sseInv_stepBubble s (SSEEvent.setCurrent (some b)) hB
    have hcur1 : s1.current = some b := rfl
    obtain ⟨h2, hcur2, hccid2, hes2, hlen2, hconv2⟩ := connectBubble_after s1 h1 b hcur1
    rw [connectBubble_stale (connectSSEBubble s1 b) b hcur2 hccid2 hes2 a]
    exact ⟨hlen2, hconv2⟩

/-- A slice strictly inside the prefix survives appending. -/
theorem sliceAt_append (cs d : List Char) (s l : Nat) (h : s + l ≤ cs.length) :
    sliceAt (cs ++ d) s l = sliceAt cs s l := by
  unfold sliceAt
  rw [List.drop_append_eq_append_drop, List.take_append_eq_append_take]
  have h1 : s - cs.length = 0 := by omega
  have h2 : l - (cs.drop s).length = 0 := by
    rw [List.length_drop]
    omega
  rw [h1, h2]
  simp

/-- The slice at the end of an append is the appended part. -/
theorem sliceAt_append_self (cs tok : List Char) :
    sliceAt (cs ++ tok) cs.length tok.length = tok := by
  unfold sliceAt
  rw [List.drop_left]
  exact List.take_length tok

/-- Occurrence well-formedness survives appending content. -/
theorem occWF_append (cs d : List Char) (o : Occurrence) (h : OccWF cs o) :
    OccWF (cs ++ d) o := by
  obtain ⟨h1, h2, name, h3, h4⟩ := h
  have hsl : o.offset_start + o.length ≤ cs.length := by omega
  refine ⟨h1, by rw [List.length_append]; omega, name, ?_, h4⟩
  rw [sliceAt_append cs d _ _ hsl]
  exact h3

/-- Occurrence-list well-formedness survives appending content. -/
theorem occsOk_append (cs d : List Char) (occs : List Occurrence) (h : OccsOk cs occs) :
    OccsOk (cs ++ d) occs :=
  ⟨h.1, fun o ho => occWF_append cs d o (h.2 o ho)⟩

/-- Appending a wire token at the end of the content and recording its
occurrence at the old length keeps the occurrence list well formed. -/
theorem occsOk_snoc (cs : List Char) (occs : List Occurrence) (ty : MentionType)
    (mid name : List Char) (h : OccsOk cs occs) :
    OccsOk (cs ++ tokenChars ty name)
      (occs ++ [{ entity_type := ty, entity_id := mid, offset_start := cs.length,
                  offset_end := cs.length + (tokenChars ty name).length,
                  length := (tokenChars ty name).length }]) := by
  obtain ⟨hch, hwf⟩ := h
  constructor
  · rw [List.chain'_append]
    refine ⟨hch, List.chain'_singleton _, ?_⟩
    intro x hx y hy
    simp only [List.head?_cons, Option.mem_def, Option.some.injEq] at hy
    have hxmem : x ∈ occs := List.mem_of_mem_getLast? hx
    have hxe : x.offset_end ≤ cs.length := (hwf x hxmem).2.1
    rw [← hy]
    exact hxe
  · intro o ho
    rcases List.mem_append.mp ho with h1 | h1
    · exact occWF_append _ _ _ (hwf o h1)
    · simp only [List.mem_singleton] at h1
      subst h1
      refine ⟨rfl, by rw [List.length_append], name, ?_, rfl⟩
      exact sliceAt_append_self cs (tokenChars ty name)

mutual

/-- The walk of one node only appends to the content and keeps the
occurrence list well formed against the grown content. -/
theorem walkNode_ok (n : DomNode) (c : List Char) (occs : List Occurrence) :
    (∃ d, (walkNode n c occs).1 = c ++ d) ∧
      (OccsOk c occs → OccsOk (walkNode n c occs).1 (walkNode n c occs).2) :=
  match n with
  | DomNode.text d => ⟨⟨d, rfl⟩, fun h => occsOk_append c d occs h⟩
  | DomNode.br => ⟨⟨['\n'], rfl⟩, fun h => occsOk_append c ['\n'] occs h⟩
  | DomNode.chip mid mname mtype _ch =>
      ⟨⟨tokenChars mtype mname, rfl⟩, fun h => occsOk_snoc c occs mtype mid mname h⟩
  | DomNode.block ch => by
      have hbase := walkForest_ok ch (if c.getLast? = some '\n' then c else c ++ ['\n']) occs
      constructor
      · obtain ⟨d, hd⟩ := hbase.1
        by_cases hnl : c.getLast? = some '\n'
        · rw [if_pos hnl] at hd
          exact ⟨d, by simpa [walkNode, if_pos hnl] using hd⟩
        · rw [if_neg hnl] at hd
          refine ⟨'\n' :: d, ?_⟩
          simpa [walkNode, if_neg hnl] using hd
      · intro h
        have h' : OccsOk (if c.getLast? = some '\n' then c else c ++ ['\n']) occs := by
          by_cases hnl : c.getLast? = some '\n'
          · rwa [if_pos hnl]
          · rw [if_neg hnl]
            exact occsOk_append c ['\n'] occs h
        simpa [walkNode] using hbase.2 h'
  | DomNode.inlineEl ch => by
      have hbase := walkForest_ok ch c occs
      exact ⟨hbase.1, fun h => hbase.2 h⟩

/-- The walk of a sibling list only appends to the content and keeps the
occurrence list well formed against the grown content. -/
theorem walkForest_ok (f : DomForest) (c : List Char) (occs : List Occurrence) :
    (∃ d, (walkForest f c occs).1 = c ++ d) ∧
      (OccsOk c occs → OccsOk (walkForest f c occs).1 (walkForest f c occs).2) :=
  match f with
  | DomForest.nil => ⟨⟨[], by simp [walkForest]⟩, fun h => h⟩
  | DomForest.cons hd tl => by
      have h1 := walkNode_ok hd c occs
      have h2 := walkForest_ok tl (walkNode hd c occs).1 (walkNode hd c occs).2
      constructor
      · obtain ⟨d1, hd1⟩ := h1.1
        obtain ⟨d2, hd2⟩ := h2.1
        refine ⟨d1 ++ d2, ?_⟩
        show (walkForest tl (walkNode hd c occs).1 (walkNode hd c occs).2).1 = c ++ (d1 ++ d2)
        rw [hd2, hd1, List.append_assoc]
      · intro h
        exact h2.2 (h1.2 h)

end

/-- Well-formed occurrence lists have monotonically non-decreasing start
offsets. -/
theorem chain_start_of_occsOk (cs : List Char) (occs : List Occurrence)
    (h : OccsOk cs occs) :
    occs.Chain' (fun a b => a.offset_start ≤ b.offset_start) := by
  obtain ⟨hch, hwf⟩ := h
  induction occs with
  | nil => exact List.chain'_nil
  | cons a rest ih =>
      rw [List.chain'_cons'] at hch ⊢
      refine ⟨?_, ih hch.2 (fun o ho => hwf o (by simp [ho]))⟩
      intro y hy
      have hends : a.offset_end ≤ y.offset_start := hch.1 y hy
      have hA : a.offset_end = a.offset_start + a.length := (hwf a (by simp)).1
      omega

/-- C5 (amended).  For every editing surface: each mention chip encountered
during the walk emits the canonical token `@{type}{name}` and records an
occurrence whose `offset_start` is the length of the output built so far —
the slice of the built string at the recorded offset is exactly a wire
token of the recorded type, `offset_end = offset_start + length` and
`length` is the token's length — the recorded occurrences never overlap
and their offsets are monotonically non-decreasing in emission order, and
the returned content is the built string with newline runs of three or
more collapsed to two and then trimmed of leading and trailing whitespace.
(The original claim omits the newline collapse between building and
trimming; see the counterexample.) -/
theorem serialize_contenteditable_spec (root : DomForest) :
    OccsOk (walkForest root [] []).1 (walkForest root [] []).2 ∧
    ((walkForest root [] []).2).Chain'
      (fun a b => a.offset_start ≤ b.offset_start) ∧
    serializeContenteditableToText root
      = (trimChars (collapseNewlines (walkForest root [] []).1), (walkForest root [] []).2) := by
  have hok : OccsOk (walkForest root [] []).1 (walkForest root [] []).2 :=
    (walkForest_ok root [] []).2 ⟨List.chain'_nil, by simp⟩
  exact ⟨hok, chain_start_of_occsOk _ _ hok, rfl⟩

/-- C5 counterexample.  For the surface `c5Forest` (one text node
`"a\n\n\nb"`) the built string is `"a\n\n\nb"`; the returned content is
`"a\n\nb"` (the `\n{3,} → \n\n` collapse runs before the trim), which is
not the built string trimmed of leading and trailing whitespace — refuting
"the returned content is the built string trimmed of leading and trailing
whitespace" as stated. -/
theorem serialize_trim_only_cex :
    (serializeContenteditableToText c5Forest).1 ≠ trimChars (walkForest c5Forest [] []).1 := by
  decide

/-- A wire token is its prefix, the name, and the closing brace. -/
theorem tokenChars_eq (ty : MentionType) (name : List Char) :
    tokenChars ty name = tokenPrefix ty ++ (name ++ ['}']) := by
  show tokenChars ty name = tokenPrefix ty ++ (name ++ "\x7d".data)
  simp [tokenChars, tokenPrefix, List.append_assoc]

/-- What a successful single-type match says: the type is the tried one,
the name is non-empty, the length is prefix + name + closing brace, and
the input starts with exactly that wire token. -/
theorem tryTokenTy_some (ty : MentionType) (cs : List Char) (ty' : MentionType)
    (nm : List Char) (len : Nat) (h : tryTokenTy ty cs = some (ty', nm, len)) :
    ty' = ty ∧ nm ≠ [] ∧ len = (tokenPrefix ty).length + nm.length + 1 ∧
      cs.take len = tokenChars ty nm := by
  unfold tryTokenTy at h
  by_cases hp : (tokenPrefix ty).isPrefixOf cs
  case neg => rw [if_neg hp] at h; cases h
  rw [if_pos hp] at h
  by_cases hz : ((cs.drop (tokenPrefix ty).length).takeWhile (fun ch => ch != '}')).length = 0
  case neg => ?_
  case pos => rw [if_pos hz] at h; cases h
  rw [if_neg hz] at h
  by_cases hh : ((cs.drop (tokenPrefix ty).length).drop
      ((cs.drop (tokenPrefix ty).length).takeWhile (fun ch => ch != '}')).length).head?
      = some '}'
  case neg => rw [if_neg hh] at h; cases h
  rw [if_pos hh] at h
  simp only [Option.some.injEq, Prod.mk.injEq] at h
  obtain ⟨hty, hnm, hlen⟩ := h
  set rest := cs.drop (tokenPrefix ty).length with hrestdef
  set name := rest.takeWhile (fun ch => ch != '}') with hnamedef
  refine ⟨hty.symm, ?_, ?_, ?_⟩
  · rw [← hnm]
    intro hcon
    rw [hcon] at hz
    exact hz rfl
  · rw [← hlen, ← hnm]
  · -- decompose the input around the match
    have hpfx : cs.take (tokenPrefix ty).length = tokenPrefix ty := by
      have := (List.prefix_iff_eq_take).mp (List.isPrefixOf_iff_prefix.mp hp)
      exact this.symm
    have hcs : cs = tokenPrefix ty ++ rest := by
      conv_lhs => rw [← List.take_append_drop (tokenPrefix ty).length cs]
      rw [hpfx, ← hrestdef]
    have hnp : name <+: rest := hnamedef ▸ List.takeWhile_prefix _
    obtain ⟨t, ht⟩ := hnp
    have hdropn : rest.drop name.length = t := by
      rw [← ht, List.drop_left]
    have hhead : t.head? = some '}' := by
      rw [← hdropn]
      exact hh
    obtain ⟨t2, ht2⟩ : ∃ t2, t = '}' :: t2 := by
      cases t with
      | nil => cases hhead
      | cons a t2 =>
          simp only [List.head?_cons, Option.some.injEq] at hhead
          exact ⟨t2, by rw [hhead]⟩
    have hrest2 : rest = name ++ '}' :: t2 := by rw [← ht2, ht]
    rw [← hlen, ← hnm, hcs, hrest2, tokenChars_eq]
    rw [List.take_append_eq_append_take]
    have h1 : (tokenPrefix ty).length + name.length + 1 - (tokenPrefix ty).length
        = name.length + 1 := by omega
    rw [List.take_of_length_le (by omega), h1]
    congr 1
    rw [List.take_append_eq_append_take]
    have h2 : name.length + 1 - name.length = 1 := by omega
    rw [List.take_of_length_le (by omega), h2]
    rfl

/-- What a successful match of the full alternation says. -/
theorem tryToken_some (cs : List Char) (ty : MentionType) (nm : List Char) (len : Nat)
    (h : tryToken cs = some (ty, nm, len)) :
    nm ≠ [] ∧ len = (tokenPrefix ty).length + nm.length + 1 ∧
      cs.take len = tokenChars ty nm ∧ 1 ≤ len := by
  unfold tryToken at h
  cases hm : tryTokenTy MentionType.meeting cs with
  | some r =>
      rw [hm] at h
      simp only [Option.some.injEq] at h
      subst h
      obtain ⟨hty, hnm, hlen, htake⟩ := tryTokenTy_some MentionType.meeting cs ty nm len hm
      subst hty
      exact ⟨hnm, hlen, htake, by omega⟩
  | none =>
      rw [hm] at h
      cases hp : tryTokenTy MentionType.project cs with
      | some r =>
          rw [hp] at h
          simp only [Option.some.injEq] at h
          subst h
          obtain ⟨hty, hnm, hlen, htake⟩ := tryTokenTy_some MentionType.project cs ty nm len hp
          subst hty
          exact ⟨hnm, hlen, htake, by omega⟩
      | none =>
          rw [hp] at h
          obtain ⟨hty, hnm, hlen, htake⟩ := tryTokenTy_some MentionType.file cs ty nm len h
          subst hty
          exact ⟨hnm, hlen, htake, by omega⟩

/-- No token matches at the end of the input. -/
theorem tryToken_nil : tryToken [] = none := by decide

/-- Soundness and ordering of the scanner, for any fuel: every reported
token is a `tryToken` match at its reported offset (relative to `pos`),
spans `stop - start`, carries the trimmed name, and the reported tokens
are disjoint and in scan order. -/
theorem scanTokens_props (fuel : Nat) :
    ∀ (cs : List Char) (pos : Nat),
      (scanTokens fuel cs pos).Chain' (fun a b => a.stop ≤ b.start) ∧
      ∀ t ∈ scanTokens fuel cs pos, pos ≤ t.start ∧ t.start < t.stop ∧
        ∃ nm, tryToken (cs.drop (t.start - pos)) = some (t.mtype, nm, t.stop - t.start) ∧
          t.mid = trimChars nm ∧ t.mname = trimChars nm := by
  induction fuel with
  | zero =>
      intro cs pos
      refine ⟨by simp [scanTokens], ?_⟩
      intro t ht
      simp [scanTokens] at ht
  | succ fuel ih =>
      intro cs pos
      cases cs with
      | nil =>
          refine ⟨by simp [scanTokens], ?_⟩
          intro t ht
          simp [scanTokens] at ht
      | cons ch rest =>
          cases h0 : tryToken (ch :: rest) with
          | none =>
              have heq : scanTokens (fuel + 1) (ch :: rest) pos
                  = scanTokens fuel rest (pos + 1) := by
                simp [scanTokens, h0]
              rw [heq]
              obtain ⟨ihc, ihp⟩ := ih rest (pos + 1)
              refine ⟨ihc, ?_⟩
              intro t ht
              obtain ⟨hge, hlt, nm, htok, hmid, hmname⟩ := ihp t ht
              refine ⟨by omega, hlt, nm, ?_, hmid, hmname⟩
              have harith : t.start - pos = (t.start - (pos + 1)) + 1 := by omega
              rw [harith]
              exact htok
          | some r =>
              obtain ⟨ty, nm0, len⟩ := r
              obtain ⟨hnm0, hlen, htake, hone⟩ := tryToken_some _ _ _ _ h0
              have heq : scanTokens (fuel + 1) (ch :: rest) pos
                  = { start := pos, stop := pos + len, mtype := ty,
                      mid := trimChars nm0, mname := trimChars nm0 } ::
                      scanTokens fuel (rest.drop (len - 1)) (pos + len) := by
                simp [scanTokens, h0]
              rw [heq]
              obtain ⟨ihc, ihp⟩ := ih (rest.drop (len - 1)) (pos + len)
              have hds : rest.drop (len - 1) = (ch :: rest).drop len := by
                cases len with
                | zero => omega
                | succ k => simp
              constructor
              · rw [List.chain'_cons']
                refine ⟨?_, ihc⟩
                intro y hy
                have hymem : y ∈ scanTokens fuel (rest.drop (len - 1)) (pos + len) :=
                  List.mem_of_mem_head? hy
                exact (ihp y hymem).1
              · intro t ht
                rcases List.mem_cons.mp ht with h1 | h1
                · subst h1
                  refine ⟨le_refl _, ?_, nm0, ?_, rfl, rfl⟩
                  · show pos < pos + len
                    omega
                  · show tryToken ((ch :: rest).drop (pos - pos))
                        = some (ty, nm0, pos + len - pos)
                    rw [Nat.sub_self, List.drop_zero]
                    have hps : pos + len - pos = len := by omega
                    rw [hps]
                    exact h0
                · obtain ⟨hge, hlt, nm, htok, hmid, hmname⟩ := ihp t h1
                  refine ⟨by omega, hlt, nm, ?_, hmid, hmname⟩
                  rw [hds, List.drop_drop] at htok
                  have harith : len + (t.start - (pos + len)) = t.start - pos := by omega
                  rw [harith] at htok
                  exact htok

/-- Completeness of the scanner with sufficient fuel: wherever a token
matches, some reported token covers that position. -/
theorem scanTokens_complete (fuel : Nat) :
    ∀ (cs : List Char) (pos i : Nat) (ty : MentionType) (nm : List Char) (len : Nat),
      cs.length ≤ fuel → tryToken (cs.drop i) = some (ty, nm, len) →
      ∃ t ∈ scanTokens fuel cs pos, t.start ≤ pos + i ∧ pos + i < t.stop := by
  induction fuel with
  | zero =>
      intro cs pos i ty nm len hf htok
      have hnil : cs = [] := List.length_eq_zero.mp (by omega)
      subst hnil
      rw [List.drop_nil, tryToken_nil] at htok
      cases htok
  | succ fuel ih =>
      intro cs pos i ty nm len hf htok
      cases cs with
      | nil =>
          rw [List.drop_nil, tryToken_nil] at htok
          cases htok
      | cons ch rest =>
          cases h0 : tryToken (ch :: rest) with
          | some r =>
              obtain ⟨ty0, nm0, len0⟩ := r
              obtain ⟨-, -, -, hone⟩ := tryToken_some _ _ _ _ h0
              have heq : scanTokens (fuel + 1) (ch :: rest) pos
                  = { start := pos, stop := pos + len0, mtype := ty0,
                      mid := trimChars nm0, mname := trimChars nm0 } ::
                      scanTokens fuel (rest.drop (len0 - 1)) (pos + len0) := by
                simp [scanTokens, h0]
              have hds : rest.drop (len0 - 1) = (ch :: rest).drop len0 := by
                cases len0 with
                | zero => omega
                | succ k => simp
              by_cases hi : i < len0
              · rw [heq]
                refine ⟨_, List.mem_cons_self _ _, ?_, ?_⟩
                · show pos ≤ pos + i
                  omega
                · show pos + i < pos + len0
                  omega
              · have hf' : ((ch :: rest).drop len0).length ≤ fuel := by
                  rw [List.length_drop]
                  have : (ch :: rest).length = rest.length + 1 := by simp
                  omega
                have htok' : ((ch :: rest).drop len0).drop (i - len0) = (ch :: rest).drop i := by
                  rw [List.drop_drop]
                  have : len0 + (i - len0) = i := by omega
                  rw [this]
                obtain ⟨t, htmem, h1, h2⟩ :=
                  ih ((ch :: rest).drop len0) (pos + len0) (i - len0) ty nm len hf'
                    (by rw [htok']; exact htok)
                refine ⟨t, ?_, by omega, by omega⟩
                rw [heq]
                exact List.mem_cons_of_mem _ (by rw [hds]; exact htmem)
          | none =>
              have heq : scanTokens (fuel + 1) (ch :: rest) pos
                  = scanTokens fuel rest (pos + 1) := by
                simp [scanTokens, h0]
              cases i with
              | zero =>
                  rw [List.drop_zero, h0] at htok
                  cases htok
              | succ k =>
                  have hf' : rest.length ≤ fuel := by
                    have : (ch :: rest).length = rest.length + 1 := by simp
                    omega
                  obtain ⟨t, htmem, h1, h2⟩ := ih rest (pos + 1) k ty nm len hf' htok
                  refine ⟨t, by rw [heq]; exact htmem, by omega, by omega⟩

/-- C6 (amended).  `parseWireTokens` scans left to right and recognizes
the leftmost non-overlapping substrings of the form `@{type}{name}` with
`type ∈ {meeting, project, file}` and a non-empty brace-free name: every
reported occurrence spans a full well-formed token (so malformed tokens —
unmatched braces, unknown type — are left as literal text and never
partially consumed), the occurrences are disjoint and in increasing
order, every position where a well-formed token starts is covered by some
reported occurrence, and `"@{meeting}{Sprint Planning}"` yields exactly
one occurrence of type `meeting`, name `"Sprint Planning"`, spanning the
full token.  (The original "exactly the substrings of the form" fails for
a token-shaped substring overlapping an earlier match; see the
counterexample.) -/
theorem parseTokensFromText_spec (cs : List Char) :
    (∀ t ∈ parseTokensFromText cs, ∃ nm,
        sliceAt cs t.start (t.stop - t.start) = tokenChars t.mtype nm ∧
        t.mid = trimChars nm ∧ t.mname = trimChars nm ∧ t.start < t.stop) ∧
    (parseTokensFromText cs).Chain' (fun a b => a.stop ≤ b.start) ∧
    (∀ i ty nm len, tryToken (cs.drop i) = some (ty, nm, len) →
      ∃ t ∈ parseTokensFromText cs, t.start ≤ i ∧ i < t.stop) ∧
    parseTokensFromText "@\x7bmeeting\x7d\x7bSprint Planning\x7d".data =
      [{ start := 0, stop := 27, mtype := MentionType.meeting,
         mid := "Sprint Planning".data, mname := "Sprint Planning".data }] := by
  obtain ⟨hch, hsound⟩ := scanTokens_props cs.length cs 0
  refine ⟨?_, hch, ?_, by decide⟩
  · intro t ht
    obtain ⟨hge, hlt, nm, htok, hmid, hmname⟩ := hsound t ht
    rw [Nat.sub_zero] at htok
    obtain ⟨hnm, hlen, htake, -⟩ := tryToken_some _ _ _ _ htok
    exact ⟨nm, htake, hmid, hmname, hlt⟩
  · intro i ty nm len htok
    obtain ⟨t, htmem, h1, h2⟩ :=
      scanTokens_complete cs.length cs 0 i ty nm len (le_refl _) htok
    exact ⟨t, htmem, by omega, by omega⟩

/-- C6 counterexample.  In `c6Input = "@{meeting}{a@{file}{b}"` the
substring `@{file}{b}` starting at index 12 is a well-formed wire token
(`tryToken` matches there), yet the parser — whose earlier match
`@{meeting}{a@{file}` spans indices 0–18 and overlaps it — reports no
occurrence starting at 12, refuting "recognizes exactly the substrings of
the form `@{type}{name}`". -/
theorem parseTokens_exact_cex :
    tryToken (c6Input.drop 12) = some (MentionType.file, "b".data, 10) ∧
    ¬ ∃ t ∈ parseTokensFromText c6Input, t.start = 12 := by
  decide

/-- When `lastIndexOf` reports no occurrence, there is none. -/
theorem lastIndexOf_none (cs : List Char) (ch : Char) :
    lastIndexOf cs ch = none → ∀ j, cs.get? j ≠ some ch := by
  induction cs with
  | nil =>
      intro _ j
      simp
  | cons c rest ih =>
      intro h j
      unfold lastIndexOf at h
      cases hr : lastIndexOf rest ch with
      | some k => rw [hr] at h; cases h
      | none =>
          rw [hr] at h
          by_cases hc : c = ch
          · rw [if_pos hc] at h; cases h
          · cases j with
            | zero => simpa using hc
            | succ j' => exact ih hr j'

/-- `lastIndexOf` finds an actual occurrence and nothing later. -/
theorem lastIndexOf_some (cs : List Char) (ch : Char) :
    ∀ i, lastIndexOf cs ch = some i →
      cs.get? i = some ch ∧ ∀ j, i < j → cs.get? j ≠ some ch := by
  induction cs with
  | nil => intro i h; cases h
  | cons c rest ih =>
      intro i h
      unfold lastIndexOf at h
      cases hr : lastIndexOf rest ch with
      | some k =>
          rw [hr] at h
          simp only [Option.some.injEq] at h
          subst h
          obtain ⟨h1, h2⟩ := ih k hr
          refine ⟨h1, ?_⟩
          intro j hj
          cases j with
          | zero => omega
          | succ j' =>
              show rest.get? j' ≠ some ch
              exact h2 j' (by omega)
      | none =>
          rw [hr] at h
          by_cases hc : c = ch
          · rw [if_pos hc] at h
            simp only [Option.some.injEq] at h
            subst h
            refine ⟨by simp [hc], ?_⟩
            intro j hj
            cases j with
            | zero => omega
            | succ j' => exact lastIndexOf_none rest ch hr j'
          · rw [if_neg hc] at h
            cases h

/-- An occurrence with nothing later is exactly what `lastIndexOf`
reports. -/
theorem lastIndexOf_eq_some (cs : List Char) (ch : Char) :
    ∀ i, cs.get? i = some ch → (∀ j, i < j → cs.get? j ≠ some ch) →
      lastIndexOf cs ch = some i := by
  induction cs with
  | nil =>
      intro i h
      simp at h
  | cons c rest ih =>
      intro i h hmax
      unfold lastIndexOf
      cases i with
      | zero =>
          have hc : c = ch := by simpa using h
          cases hr : lastIndexOf rest ch with
          | some k =>
              have := (lastIndexOf_some rest ch k hr).1
              exact absurd this (hmax (k + 1) (by omega))
          | none => rw [if_pos hc]
      | succ i' =>
          have hr : lastIndexOf rest ch = some i' :=
            ih i' (by simpa using h) (fun j hj => hmax (j + 1) (by omega))
          rw [hr]

/-- The last element of a non-trivial `take` is the element before the
cut. -/
theorem getLast?_take_eq (cs : List Char) (i : Nat) (h1 : 0 < i) (h2 : i ≤ cs.length) :
    (cs.take i).getLast? = cs.get? (i - 1) := by
  rw [List.getLast?_eq_getElem?]
  have hlen : (cs.take i).length = i := by
    rw [List.length_take]
    omega
  rw [hlen, List.get?_eq_getElem?]
  exact List.getElem?_take_of_lt (by omega)

/-- The boundary test succeeds exactly on a node-start `@` or one preceded
by a non-word character. -/
theorem triggerBoundary_iff (left : List Char) (i : Nat) (hil : i ≤ left.length) :
    triggerBoundary left i = true ↔
      i = 0 ∨ ∃ c, left.get? (i - 1) = some c ∧ isWordChar c = false := by
  unfold triggerBoundary
  cases hi : i with
  | zero =>
      simp
  | succ i' =>
      have hgl : (left.take (i' + 1)).getLast? = left.get? i' := by
        have := getLast?_take_eq left (i' + 1) (by omega) (by omega)
        simpa using this
      rw [hgl]
      cases hg : left.get? i' with
      | none =>
          have hlen : left.length ≤ i' := List.get?_eq_none.mp hg
          omega
      | some c =>
          rw [List.get?_eq_getElem?] at hg
          simp [hg]

/-- C7 (amended).  `findTrigger` on the text left of the cursor returns the
span from the last `@` before the cursor to the cursor, with the substring
after that `@` as the query, provided the character immediately preceding
that `@` is the start of the node or a non-word character; it returns null
exactly when no `@` exists before the cursor or when the character
immediately preceding the last `@` is a word character.  Concretely,
`"hello @mee"` yields the range from index 6 with query `"mee"` and
`"foo@bar"` yields null.  (The original claim — null exactly when no
boundary-preceded `@` exists at all — fails because only the last `@` is
tested; see the counterexample.) -/
theorem findTriggerRange_spec (left : List Char) :
    (∀ i q, findTriggerRange left = some (i, q) →
        left.get? i = some '@' ∧ (∀ j, i < j → left.get? j ≠ some '@') ∧
        (i = 0 ∨ ∃ c, left.get? (i - 1) = some c ∧ isWordChar c = false) ∧
        q = left.drop (i + 1)) ∧
    (findTriggerRange left = none ↔
        (∀ j, left.get? j ≠ some '@') ∨
        ∃ i c, left.get? i = some '@' ∧ (∀ j, i < j → left.get? j ≠ some '@') ∧
          0 < i ∧ left.get? (i - 1) = some c ∧ isWordChar c = true) ∧
    findTriggerRange "hello @mee".data = some (6, "mee".data) ∧
    findTriggerRange "foo@bar".data = none := by
  refine ⟨?_, ⟨?_, ?_⟩, by decide, by decide⟩
  · intro i q h
    cases hl : lastIndexOf left '@' with
    | none => simp [findTriggerRange, hl] at h
    | some i0 =>
        obtain ⟨hat, hmax⟩ := lastIndexOf_some left '@' i0 hl
        have hil : i0 ≤ left.length := by
          obtain ⟨hlt, -⟩ := List.get?_eq_some.mp hat
          omega
        simp only [findTriggerRange, hl] at h
        by_cases hb : triggerBoundary left i0 = true
        · rw [if_pos hb] at h
          simp only [Option.some.injEq, Prod.mk.injEq] at h
          obtain ⟨hi, hq⟩ := h
          subst hi
          exact ⟨hat, hmax, (triggerBoundary_iff left i0 hil).mp hb, hq.symm⟩
        · rw [if_neg hb] at h
          cases h
  · intro h
    cases hl : lastIndexOf left '@' with
    | none => exact Or.inl (lastIndexOf_none left '@' hl)
    | some i0 =>
        obtain ⟨hat, hmax⟩ := lastIndexOf_some left '@' i0 hl
        have hil : i0 ≤ left.length := by
          obtain ⟨hlt, -⟩ := List.get?_eq_some.mp hat
          omega
        simp only [findTriggerRange, hl] at h
        by_cases hb : triggerBoundary left i0 = true
        · rw [if_pos hb] at h
          cases h
        · right
          have hb' : ¬(i0 = 0 ∨ ∃ c, left.get? (i0 - 1) = some c ∧ isWordChar c = false) :=
            fun hc => hb ((triggerBoundary_iff left i0 hil).mpr hc)
          push_neg at hb'
          obtain ⟨hi0, hprev⟩ := hb'
          cases hg : left.get? (i0 - 1) with
          | none =>
              have hlen : left.length ≤ i0 - 1 := List.get?_eq_none.mp hg
              have : i0 < left.length := by
                obtain ⟨hlt, -⟩ := List.get?_eq_some.mp hat
                omega
              omega
          | some c =>
              refine ⟨i0, c, hat, hmax, by omega, hg, ?_⟩
              have := hprev c hg
              revert this
              cases isWordChar c <;> simp
  · rintro (hno | ⟨i, c, hat, hmax, hpos, hprev, hw⟩)
    · cases hl : lastIndexOf left '@' with
      | none => simp [findTriggerRange, hl]
      | some i0 =>
          have := (lastIndexOf_some left '@' i0 hl).1
          exact absurd this (hno i0)
    · have hl : lastIndexOf left '@' = some i := lastIndexOf_eq_some left '@' i hat hmax
      have hil : i ≤ left.length := by
        obtain ⟨hlt, -⟩ := List.get?_eq_some.mp hat
        omega
      have hb : ¬ triggerBoundary left i = true := by
        rw [triggerBoundary_iff left i hil]
        push_neg
        refine ⟨by omega, ?_⟩
        intro c' hc'
        rw [hprev] at hc'
        simp only [Option.some.injEq] at hc'
        rw [← hc', hw]
        simp
      simp [findTriggerRange, hl, hb]

/-- C7 counterexample.  In `c7Input = "@x y@z"` (the text left of the
cursor) the `@` at index 0 is boundary-preceded — it sits at the node
start — yet `findTrigger` returns null, because only the last `@`
(index 4, preceded by the word character `y`) is tested.  This refutes
"returns null exactly when no such boundary-preceded @ exists between
line start and cursor". -/
theorem findTrigger_null_cex :
    findTriggerRange c7Input = none ∧ c7Input.get? 0 = some '@' ∧
      triggerBoundary c7Input 0 = true := by
  decide

/-- C8.  `runSearch` always opens the popover; the item list is capped at
the configured maximum, whose default is 8; on a fulfilled search the
items are the results capped at the limit and the focus is 0 for
non-empty results and -1 for empty ones; and a rejected search sets an
empty item list and focus -1 and still opens the popover — the rejection
is absorbed, never re-thrown. -/
theorem runSearch_spec (limit : Nat) (res : Except Unit (List MentionSearchItem))
    (s : SuggestState) :
    (runSearch limit res s).isOpen = true ∧
    (runSearch limit res s).items.length ≤ limit ∧
    (∀ r, res = Except.ok r →
        (runSearch limit res s).items = r.take limit ∧
        (r ≠ [] → (runSearch limit res s).focusedIndex = 0) ∧
        (r = [] → (runSearch limit res s).focusedIndex = -1)) ∧
    (res = Except.error () →
        (runSearch limit res s).items = [] ∧
        (runSearch limit res s).focusedIndex = -1) ∧
    defaultSearchLimit = 8 := by
  cases res with
  | ok r =>
      refine ⟨rfl, ?_, ?_, ?_, rfl⟩
      · simp [runSearch]
      · intro r' hr'
        simp only [Except.ok.injEq] at hr'
        subst hr'
        refine ⟨rfl, ?_, ?_⟩
        · intro hne
          have : 0 < r.length := List.length_pos.mpr hne
          simp [runSearch, this]
        · intro hnil
          subst hnil
          simp [runSearch]
      · intro hcon
        cases hcon
  | error e =>
      cases e
      refine ⟨rfl, ?_, ?_, fun _ => ⟨rfl, rfl⟩, rfl⟩
      · simp [runSearch]
      · intro r hcon
        cases hcon

/-- C9.  When no trigger range is recorded, `commit` returns `false` and
leaves the whole controller state — the editing surface and the popover
state included — unchanged.  The guard is the first statement of the
callback, so nothing in it can throw. -/
theorem commit_no_trigger_noop (s : MentionController) (item : MentionSearchItem)
    (h : s.triggerRange = none) : commit s item = (false, s) := by
  cases he : s.editor <;> simp [commit, h, he]

/-- C9 witness: `commit` at a concrete controller state with an editor but
no recorded trigger range. -/
theorem commit_no_trigger_noop_witness :
    commit c9Controller c9Item = (false, c9Controller) :=
  commit_no_trigger_noop c9Controller c9Item rfl

/-- C10 (implicit).  `convertMentionToApiFormat(m, n)` copies the type and
id and spans `n ... n + m.name.length + 1` — the length of the short
display form `@name` — which is strictly shorter than the wire token
`@{type}{name}` that serialization emits and measures for the same
mention. -/
theorem convertMention_short_span (m : Mention) (n : Nat) :
    convertMentionToApiFormat m n =
      { entity_type := m.type, entity_id := m.id, offset_start := n,
        offset_end := n + m.name.length + 1 } ∧
    (convertMentionToApiFormat m n).offset_end - (convertMentionToApiFormat m n).offset_start
      = ('@' :: m.name).length ∧
    ('@' :: m.name).length < (tokenChars m.type m.name).length := by
  refine ⟨rfl, ?_, ?_⟩
  · show n + m.name.length + 1 - n = ('@' :: m.name).length
    simp
    omega
  · cases hty : m.type <;>
      simp [tokenChars, typeChars, List.length_append]

end AgnoChat
